import Mathlib

/-!
Verification of the Turing Smart Screen CLI driver (`turing_screen_cli.py`).

The Python source is shallowly embedded: byte strings become `List Nat`
(each entry a byte value), fallible transport replies become
`Option (List Nat)`, and the DES block primitive — which lives in the
external `Crypto.Cipher.DES` library, not in this repository — is taken
as a parameter `E` (and its inverse `D`) mapping 8-byte blocks to 8-byte
blocks.  CBC chaining, zero padding and envelope framing are the
repository's own code and are embedded concretely below.
-/

namespace TuringScreen

/-- Bytes of the fixed DES key "slv3tuzx" (`des_key` in `encrypt_command_packet`);
the source uses it both as key and as CBC initialisation vector. -/
def desKey : List Nat := [115, 108, 118, 51, 116, 117, 122, 120]

/-- `build_command_packet_header(a0)`: a 500-byte zeroed buffer with the
opcode at byte 0, magic bytes 0x1A/0x6D at bytes 2-3 and a little-endian
u32 timestamp at bytes 4-7.  The timestamp (milliseconds since local
midnight, an effect of `time.time()`) is passed in as `ts`. -/
def build_command_packet_header (a0 ts : Nat) : List Nat :=
  let packet := List.replicate 500 0
  let packet := packet.set 0 a0
  let packet := packet.set 2 0x1A
  let packet := packet.set 3 0x6D
  let packet := packet.set 4 (ts % 256)
  let packet := packet.set 5 (ts / 256 % 256)
  let packet := packet.set 6 (ts / 65536 % 256)
  let packet := packet.set 7 (ts / 16777216 % 256)
  packet

/-- Split a byte list into consecutive 8-byte blocks.  The first argument
is recursion fuel; callers pass the list's length, which always suffices. -/
def chunkBlocks : Nat → List Nat → List (List Nat)
  | _, [] => []
  | 0, _ :: _ => []
  | fuel + 1, x :: xs => (x :: xs).take 8 :: chunkBlocks fuel ((x :: xs).drop 8)

/-- Byte-wise xor of two blocks, as CBC chaining uses it. -/
def xorBlock (a b : List Nat) : List Nat :=
  List.zipWith (fun x y => x ^^^ y) a b

/-- CBC encryption over a block list: each plaintext block is xor-ed with
the previous ciphertext block (initially the IV) before the block cipher
`E` is applied. -/
def cbcEncBlocks (E : List Nat → List Nat) : List Nat → List (List Nat) → List (List Nat)
  | _, [] => []
  | iv, b :: bs =>
    let c := E (xorBlock iv b)
    c :: cbcEncBlocks E c bs

/-- CBC decryption over a block list, inverse direction of `cbcEncBlocks`,
using the block-cipher inverse `D`. -/
def cbcDecBlocks (D : List Nat → List Nat) : List Nat → List (List Nat) → List (List Nat)
  | _, [] => []
  | iv, c :: cs => xorBlock iv (D c) :: cbcDecBlocks D c cs

/-- `encrypt_with_des(key, data)`: zero-pad `data` to the next multiple of
8 bytes (Python's `ljust`), then DES-CBC encrypt with IV = key.  The DES
block primitive is the parameter `E`. -/
def encrypt_with_des (E : List Nat → List Nat) (key data : List Nat) : List Nat :=
  let padded_len := (data.length + 7) / 8 * 8
  let padded_data := data ++ List.replicate (padded_len - data.length) 0
  List.flatten (cbcEncBlocks E key (chunkBlocks padded_data.length padded_data))

/-- DES-CBC decryption of a ciphertext byte string, the external
library inverse that the spec's round-trip statement appeals to. -/
def decrypt_with_des (D : List Nat → List Nat) (key ct : List Nat) : List Nat :=
  List.flatten (cbcDecBlocks D key (chunkBlocks ct.length ct))

/-- `encrypt_command_packet(data)`: encrypt with the fixed key, place the
ciphertext at offset 0 of a 512-byte buffer, and write the trailer bytes
161 (0xA1) and 26 (0x1A) at offsets 510 and 511. -/
def encrypt_command_packet (E : List Nat → List Nat) (data : List Nat) : List Nat :=
  let encrypted := encrypt_with_des E desKey data
  let base := encrypted ++ List.replicate (512 - encrypted.length) 0
  (base.set 510 161).set 511 26

/-! Helper lemmas for the codec. -/

theorem build_header_length (a0 ts : Nat) :
    (build_command_packet_header a0 ts).length = 500 := by
  simp only [build_command_packet_header, List.length_set, List.length_replicate]

theorem xorBlock_length (a b : List Nat) :
    (xorBlock a b).length = min a.length b.length := by
  simp [xorBlock]

theorem xorBlock_xorBlock (a : List Nat) :
    ∀ b : List Nat, a.length = b.length → xorBlock a (xorBlock a b) = b := by
  induction a with
  | nil => intro b hb; cases b <;> simp_all [xorBlock]
  | cons x xs ih =>
    intro b hb
    cases b with
    | nil => simp at hb
    | cons y ys =>
      rw [List.length_cons, List.length_cons] at hb
      simp only [xorBlock, List.zipWith_cons_cons]
      refine congrArg₂ List.cons ?_ (ih ys (by omega))
      exact Nat.xor_cancel_left x y

theorem chunkBlocks_join : ∀ (fuel : Nat) (l : List Nat), l.length ≤ fuel →
    (chunkBlocks fuel l).flatten = l := by
  intro fuel
  induction fuel with
  | zero =>
    intro l hl
    have : l = [] := List.eq_nil_of_length_eq_zero (Nat.le_zero.mp hl)
    simp [this, chunkBlocks]
  | succ f ih =>
    intro l hl
    cases l with
    | nil => simp [chunkBlocks]
    | cons x xs =>
      rw [List.length_cons] at hl
      have hrec := ih ((x :: xs).drop 8)
        (by rw [List.length_drop, List.length_cons]; omega)
      simp only [chunkBlocks, List.flatten_cons, hrec]
      exact List.take_append_drop 8 (x :: xs)

theorem chunkBlocks_mem_length : ∀ (fuel : Nat) (l : List Nat), 8 ∣ l.length →
    l.length ≤ fuel → ∀ b ∈ chunkBlocks fuel l, b.length = 8 := by
  intro fuel
  induction fuel with
  | zero =>
    intro l _ hl b hb
    have : l = [] := List.eq_nil_of_length_eq_zero (Nat.le_zero.mp hl)
    subst this
    simp [chunkBlocks] at hb
  | succ f ih =>
    intro l hdvd hl b hb
    cases l with
    | nil => simp [chunkBlocks] at hb
    | cons x xs =>
      rw [List.length_cons] at hl hdvd
      have hlen8 : 8 ≤ xs.length + 1 := by
        rcases hdvd with ⟨k, hk⟩
        rcases k with _ | k
        · simp at hk
        · omega
      simp only [chunkBlocks, List.mem_cons] at hb
      rcases hb with hb | hb
      · subst hb
        rw [List.length_take, List.length_cons]
        omega
      · refine ih ((x :: xs).drop 8) ?_ ?_ b hb
        · rw [List.length_drop, List.length_cons]
          rcases hdvd with ⟨k, hk⟩
          exact ⟨k - 1, by omega⟩
        · rw [List.length_drop, List.length_cons]
          omega

theorem cbcEncBlocks_length (E : List Nat → List Nat) :
    ∀ (bs : List (List Nat)) (iv : List Nat),
      (cbcEncBlocks E iv bs).length = bs.length := by
  intro bs
  induction bs with
  | nil => intro iv; simp [cbcEncBlocks]
  | cons b bs ih => intro iv; simp [cbcEncBlocks, ih]

theorem cbcEncBlocks_mem_length (E : List Nat → List Nat)
    (hE : ∀ b : List Nat, b.length = 8 → (E b).length = 8) :
    ∀ (bs : List (List Nat)) (iv : List Nat), iv.length = 8 →
      (∀ b ∈ bs, b.length = 8) → ∀ c ∈ cbcEncBlocks E iv bs, c.length = 8 := by
  intro bs
  induction bs with
  | nil => intro iv _ _ c hc; simp [cbcEncBlocks] at hc
  | cons b bs ih =>
    intro iv hiv hbs c hc
    have hxor : (xorBlock iv b).length = 8 := by
      rw [xorBlock_length, hiv, hbs b (by simp)]; simp
    have hc8 : (E (xorBlock iv b)).length = 8 := hE _ hxor
    simp only [cbcEncBlocks, List.mem_cons] at hc
    rcases hc with hc | hc
    · subst hc; exact hc8
    · exact ih (E (xorBlock iv b)) hc8 (fun x hx => hbs x (by simp [hx])) c hc

theorem flatten_length_of_mem (bs : List (List Nat))
    (h : ∀ b ∈ bs, b.length = 8) : bs.flatten.length = 8 * bs.length := by
  induction bs with
  | nil => simp
  | cons b bs ih =>
    simp only [List.flatten_cons, List.length_append, List.length_cons]
    rw [h b (by simp), ih (fun x hx => h x (by simp [hx]))]
    ring

theorem chunkBlocks_of_flatten : ∀ (bs : List (List Nat)) (fuel : Nat),
    (∀ b ∈ bs, b.length = 8) → bs.flatten.length ≤ fuel →
    chunkBlocks fuel bs.flatten = bs := by
  intro bs
  induction bs with
  | nil => intro fuel _ _; cases fuel <;> simp [chunkBlocks]
  | cons b bs ih =>
    intro fuel hmem hfuel
    have hb8 : b.length = 8 := hmem b (by simp)
    have hjoin : (b :: bs).flatten.length = 8 * (b :: bs).length :=
      flatten_length_of_mem _ hmem
    rw [List.length_cons] at hjoin
    cases fuel with
    | zero =>
      rw [Nat.le_zero] at hfuel
      omega
    | succ f =>
      cases b with
      | nil => simp at hb8
      | cons y ys =>
        have hcons : (y :: ys) ++ bs.flatten = y :: (ys ++ bs.flatten) := by simp
        simp only [List.flatten_cons]
        rw [hcons]
        simp only [chunkBlocks]
        rw [← hcons]
        have htake : ((y :: ys) ++ bs.flatten).take 8 = y :: ys := by
          have := List.take_left (y :: ys) bs.flatten
          rwa [hb8] at this
        have hdrop : ((y :: ys) ++ bs.flatten).drop 8 = bs.flatten := by
          have := List.drop_left (y :: ys) bs.flatten
          rwa [hb8] at this
        rw [htake, hdrop]
        refine congrArg (List.cons (y :: ys)) ?_
        refine ih f (fun x hx => hmem x (by simp [hx])) ?_
        have hflen : bs.flatten.length = 8 * bs.length :=
          flatten_length_of_mem _ (fun x hx => hmem x (by simp [hx]))
        simp only [List.flatten_cons, List.length_append] at hfuel
        omega

theorem cbcDec_cbcEnc (E D : List Nat → List Nat)
    (hE : ∀ b : List Nat, b.length = 8 → (E b).length = 8)
    (hD : ∀ b : List Nat, b.length = 8 → D (E b) = b) :
    ∀ (bs : List (List Nat)) (iv : List Nat), iv.length = 8 →
      (∀ b ∈ bs, b.length = 8) →
      cbcDecBlocks D iv (cbcEncBlocks E iv bs) = bs := by
  intro bs
  induction bs with
  | nil => intro iv _ _; simp [cbcEncBlocks, cbcDecBlocks]
  | cons b bs ih =>
    intro iv hiv hbs
    have hb8 : b.length = 8 := hbs b (by simp)
    have hxor : (xorBlock iv b).length = 8 := by
      rw [xorBlock_length, hiv, hb8]; simp
    simp only [cbcEncBlocks, cbcDecBlocks]
    rw [hD _ hxor, xorBlock_xorBlock iv b (by omega)]
    refine congrArg (List.cons b) ?_
    exact ih _ (hE _ hxor) (fun x hx => hbs x (by simp [hx]))

theorem take_set_of_le {α : Type} : ∀ (l : List α) (i n : Nat) (v : α), n ≤ i →
    (l.set i v).take n = l.take n := by
  intro l
  induction l with
  | nil => intro i n v _; simp
  | cons a l ih =>
    intro i n v hni
    cases i with
    | zero =>
      have : n = 0 := Nat.le_zero.mp hni
      simp [this]
    | succ i =>
      cases n with
      | zero => simp
      | succ n =>
        simp only [List.set, List.take_succ_cons]
        rw [ih i n v (by omega)]

theorem encrypt_with_des_def (E : List Nat → List Nat) (key data : List Nat) :
    encrypt_with_des E key data =
      (cbcEncBlocks E key (chunkBlocks
        (data ++ List.replicate ((data.length + 7) / 8 * 8 - data.length) 0).length
        (data ++ List.replicate ((data.length + 7) / 8 * 8 - data.length) 0))).flatten := rfl

theorem encrypt_command_packet_def (E : List Nat → List Nat) (data : List Nat) :
    encrypt_command_packet E data =
      ((encrypt_with_des E desKey data ++
        List.replicate (512 - (encrypt_with_des E desKey data).length) 0).set
          510 161).set 511 26 := rfl

/-- DES-CBC with the fixed key round-trips a 500-byte packet: the
ciphertext is 504 bytes and decrypting recovers the packet plus its four
bytes of zero padding. -/
theorem des_roundtrip_500 (E D : List Nat → List Nat)
    (hE : ∀ b : List Nat, b.length = 8 → (E b).length = 8)
    (hD : ∀ b : List Nat, b.length = 8 → D (E b) = b)
    (data : List Nat) (hlen : data.length = 500) :
    (encrypt_with_des E desKey data).length = 504 ∧
    decrypt_with_des D desKey (encrypt_with_des E desKey data) =
      data ++ List.replicate 4 0 := by
  have h4 : (data.length + 7) / 8 * 8 - data.length = 4 := by rw [hlen]
  have henc : encrypt_with_des E desKey data
      = (cbcEncBlocks E desKey (chunkBlocks (data ++ List.replicate 4 0).length
          (data ++ List.replicate 4 0))).flatten := by
    rw [encrypt_with_des_def, h4]
  have hplen : (data ++ List.replicate 4 0).length = 504 := by
    simp [hlen]
  have hbmem : ∀ b ∈ chunkBlocks (data ++ List.replicate 4 0).length
      (data ++ List.replicate 4 0), b.length = 8 :=
    chunkBlocks_mem_length _ _ (by rw [hplen]; exact ⟨63, rfl⟩) (Nat.le_refl _)
  have hbjoin : (chunkBlocks (data ++ List.replicate 4 0).length
      (data ++ List.replicate 4 0)).flatten = data ++ List.replicate 4 0 :=
    chunkBlocks_join _ _ (Nat.le_refl _)
  have hkey : desKey.length = 8 := rfl
  have hcmem : ∀ c ∈ cbcEncBlocks E desKey (chunkBlocks
      (data ++ List.replicate 4 0).length (data ++ List.replicate 4 0)), c.length = 8 :=
    cbcEncBlocks_mem_length E hE _ desKey hkey hbmem
  have hclen := cbcEncBlocks_length E (chunkBlocks
      (data ++ List.replicate 4 0).length (data ++ List.replicate 4 0)) desKey
  have hblen := flatten_length_of_mem _ hbmem
  rw [hbjoin] at hblen
  have henclen : (encrypt_with_des E desKey data).length = 504 := by
    rw [henc, flatten_length_of_mem _ hcmem, hclen]
    omega
  refine ⟨henclen, ?_⟩
  rw [henc]
  unfold decrypt_with_des
  rw [chunkBlocks_of_flatten _ _ hcmem (Nat.le_refl _),
    cbcDec_cbcEnc E D hE hD _ desKey hkey hbmem, hbjoin]

/-- C1: for every opcode and timestamp, the encrypted command packet
built from the 500-byte header is exactly 512 bytes, carries the trailer
bytes 0xA1 and 0x1A at offsets 510 and 511, and its first 504 bytes
decrypt under DES-CBC with key = IV = "slv3tuzx" to a 504-byte plaintext
whose first 500 bytes are the original header and whose last 4 bytes are
zero.  The external DES block primitive is any length-preserving block
map `E` with inverse `D`. -/
theorem c1_command_packet_roundtrip (E D : List Nat → List Nat)
    (hE : ∀ b : List Nat, b.length = 8 → (E b).length = 8)
    (hD : ∀ b : List Nat, b.length = 8 → D (E b) = b)
    (a0 ts : Nat) :
    (encrypt_command_packet E (build_command_packet_header a0 ts)).length = 512 ∧
    (encrypt_command_packet E (build_command_packet_header a0 ts))[510]? = some 161 ∧
    (encrypt_command_packet E (build_command_packet_header a0 ts))[511]? = some 26 ∧
    (decrypt_with_des D desKey
      ((encrypt_command_packet E (build_command_packet_header a0 ts)).take 504)).length = 504 ∧
    (decrypt_with_des D desKey
      ((encrypt_command_packet E (build_command_packet_header a0 ts)).take 504)).take 500 =
      build_command_packet_header a0 ts ∧
    (decrypt_with_des D desKey
      ((encrypt_command_packet E (build_command_packet_header a0 ts)).take 504)).drop 500 =
      List.replicate 4 0 := by
  have hlen := build_header_length a0 ts
  obtain ⟨henclen, hdec⟩ :=
    des_roundtrip_500 E D hE hD (build_command_packet_header a0 ts) hlen
  have hbaselen : (encrypt_with_des E desKey (build_command_packet_header a0 ts) ++
      List.replicate (512 - (encrypt_with_des E desKey
        (build_command_packet_header a0 ts)).length) 0).length = 512 := by
    rw [List.length_append, List.length_replicate, henclen]
  have htake : (encrypt_command_packet E (build_command_packet_header a0 ts)).take 504 =
      encrypt_with_des E desKey (build_command_packet_header a0 ts) := by
    rw [encrypt_command_packet_def,
      take_set_of_le _ 511 504 26 (by omega),
      take_set_of_le _ 510 504 161 (by omega),
      show (504 : Nat) = (encrypt_with_des E desKey
        (build_command_packet_header a0 ts)).length from henclen.symm]
    exact List.take_left _ _
  refine ⟨?_, ?_, ?_, ?_, ?_, ?_⟩
  · rw [encrypt_command_packet_def, List.length_set, List.length_set, hbaselen]
  · rw [encrypt_command_packet_def,
      List.getElem?_set_ne (by omega : (511 : Nat) ≠ 510),
      List.getElem?_set_self (by rw [hbaselen]; omega)]
  · rw [encrypt_command_packet_def,
      List.getElem?_set_self (by rw [List.length_set, hbaselen]; omega)]
  · rw [htake, hdec, List.length_append, List.length_replicate, hlen]
  · rw [htake, hdec]
    have h := List.take_left (build_command_packet_header a0 ts) (List.replicate 4 (0 : Nat))
    rwa [hlen] at h
  · rw [htake, hdec]
    have h := List.drop_left (build_command_packet_header a0 ts) (List.replicate 4 (0 : Nat))
    rwa [hlen] at h

/-- Witness for C1 at the identity block cipher, opcode 10, timestamp 0. -/
theorem c1_command_packet_roundtrip_witness :
    (∀ b : List Nat, b.length = 8 → ((fun x => x) b : List Nat).length = 8) ∧
    (∀ b : List Nat, b.length = 8 → (fun x => x) ((fun x => x) b : List Nat) = b) ∧
    ((encrypt_command_packet (fun x => x) (build_command_packet_header 10 0)).length = 512 ∧
     (encrypt_command_packet (fun x => x) (build_command_packet_header 10 0))[510]? = some 161 ∧
     (encrypt_command_packet (fun x => x) (build_command_packet_header 10 0))[511]? = some 26 ∧
     (decrypt_with_des (fun x => x) desKey
       ((encrypt_command_packet (fun x => x) (build_command_packet_header 10 0)).take 504)).length = 504 ∧
     (decrypt_with_des (fun x => x) desKey
       ((encrypt_command_packet (fun x => x) (build_command_packet_header 10 0)).take 504)).take 500 =
       build_command_packet_header 10 0 ∧
     (decrypt_with_des (fun x => x) desKey
       ((encrypt_command_packet (fun x => x) (build_command_packet_header 10 0)).take 504)).drop 500 =
       List.replicate 4 0) :=
  ⟨fun _ h => h, fun _ _ => rfl,
    c1_command_packet_roundtrip (fun x => x) (fun x => x)
      (fun _ h => h) (fun _ _ => rfl) 10 0⟩

/-! File actions and the play-select ritual.

Device transfers are modelled by the opcode of the command packet handed
to `write_to_device`; replies are `Option (List Nat)` (`none` is a failed
transaction).  Filename handling is modelled by the lower-cased extension
string that `Path(...).suffix.lower()` yields. -/

/-- Python truthiness of a transport reply: `None` and the empty byte
string are falsy. -/
def truthy (reply : Option (List Nat)) : Bool :=
  match reply with
  | none => false
  | some r => !r.isEmpty

/-- `play_file(dev, filename, play_command_func)`: `opcode` is the opcode
of the supplied play command (98 by default, 110 for `play_file2`, 113
for `play_file3`). -/
def play_file (ext : String) (opcode : Nat) (reply : Option (List Nat)) : Bool × List Nat :=
  if ext = ".png" then (truthy reply, [opcode])
  else if ext = ".h264" then (truthy reply, [opcode])
  else (false, [])

/-- Opcode trace of the `play-select` branch of `main`: sync preamble
(10), `stop_play` (111, 114), brightness (14), a conditional play#1 (98)
for `.h264`, the 111/112 resets, `clear_image` (102), then play#2 (110)
for `.h264` or play#3 (113) for `.png`.  Replies are ignored by the
branch, so the trace does not depend on them. -/
def play_select_trace (ext : String) : List Nat :=
  [10] ++ [111, 114] ++ [14]
    ++ (if ext = ".h264" then (play_file ext 98 none).2 else [])
    ++ [111, 112] ++ [102]
    ++ (if ext = ".h264" then (play_file ext 110 none).2
        else if ext = ".png" then (play_file ext 113 none).2
        else [])

/-- C4: the play-select action for a `.h264` filename emits exactly the
opcodes 10, 111, 114, 14, 98, 111, 112, 102, 110 in that order. -/
theorem c4_play_select_h264 :
    play_select_trace ".h264" = [10, 111, 114, 14, 98, 111, 112, 102, 110] := by
  decide

/-! Image streamer (`send_image`, opcode 102). -/

/-- Ceiling division, modelling `math.ceil(total_size / max_chunk_bytes)`
on the nonnegative integer sizes involved. -/
def mathCeilDiv (a b : Nat) : Nat := (a + b - 1) / b

/-- One layer produced by `send_image`: the crop rectangle taken from the
source, the canvas the crop is pasted onto, and the paste position.
Coordinates are integers, as Python computes them before clamping. -/
structure Layer where
  cropLeft : Int
  cropUpper : Int
  cropRight : Int
  cropLower : Int
  canvasWidth : Int
  canvasHeight : Int
  pasteX : Int
  pasteY : Int
deriving DecidableEq, Repr

/-- The geometric part of `send_image`: the full PNG encoding of the
source has `T` bytes and the chunk budget is `M` (`max_chunk_bytes`);
the source is `W × H`.  Mirrors the source loop: `num_layers =
ceil(T/M)`, `h = H // num_layers`, and for each `i` the crop is
`(0, y_start, W, H - h*i)` with `y_start = max(0, H - (i+1)*h)`, pasted
at `(0, y_start)` on a fresh `(W, H - i*h)` canvas. -/
def sendImageLayers (W H T M : Nat) : List Layer :=
  let num_layers := mathCeilDiv T M
  let h := H / num_layers
  (List.range num_layers).map (fun (i : Nat) =>
    let y_start : Int := max 0 ((H : Int) - ((i : Int) + 1) * (h : Int))
    { cropLeft := 0
      cropUpper := y_start
      cropRight := (W : Int)
      cropLower := (H : Int) - (h : Int) * (i : Int)
      canvasWidth := (W : Int)
      canvasHeight := (H : Int) - (i : Int) * (h : Int)
      pasteX := 0
      pasteY := y_start })

theorem sendImageLayers_length (W H T M : Nat) :
    (sendImageLayers W H T M).length = mathCeilDiv T M := by
  simp only [sendImageLayers, List.length_map, List.length_range]

theorem sendImageLayers_getElem (W H T M i : Nat) (hi : i < mathCeilDiv T M) :
    (sendImageLayers W H T M)[i]? =
      some
        { cropLeft := 0
          cropUpper := max 0 ((H : Int) - ((i : Int) + 1) * ((H / mathCeilDiv T M : Nat) : Int))
          cropRight := (W : Int)
          cropLower := (H : Int) - ((H / mathCeilDiv T M : Nat) : Int) * (i : Int)
          canvasWidth := (W : Int)
          canvasHeight := (H : Int) - (i : Int) * ((H / mathCeilDiv T M : Nat) : Int)
          pasteX := 0
          pasteY := max 0 ((H : Int) - ((i : Int) + 1) * ((H / mathCeilDiv T M : Nat) : Int)) } := by
  simp only [sendImageLayers, List.getElem?_map, List.getElem?_range hi, Option.map_some]
  rfl

/-- C5: `send_image` with encoded size `T > 0` and chunk budget `M > 0`
produces exactly `ceil(T/M)` layers, and layer `i` crops the rectangle
`(0, max(0, H-(i+1)*h), W, H-i*h)` with `h = H / ceil(T/M)` (integer
division), pastes it at `(0, max(0, H-(i+1)*h))`, and uses a canvas of
size `(W, H-i*h)`. -/
theorem c5_image_layering (W H T M : Nat) (hT : 0 < T) (hM : 0 < M) :
    (sendImageLayers W H T M).length = mathCeilDiv T M ∧
    ∀ i, i < mathCeilDiv T M →
      (sendImageLayers W H T M)[i]? =
        some
          { cropLeft := 0
            cropUpper := max 0 ((H : Int) - ((i : Int) + 1) * ((H / mathCeilDiv T M : Nat) : Int))
            cropRight := (W : Int)
            cropLower := (H : Int) - ((H / mathCeilDiv T M : Nat) : Int) * (i : Int)
            canvasWidth := (W : Int)
            canvasHeight := (H : Int) - (i : Int) * ((H / mathCeilDiv T M : Nat) : Int)
            pasteX := 0
            pasteY := max 0 ((H : Int) - ((i : Int) + 1) * ((H / mathCeilDiv T M : Nat) : Int)) } :=
  ⟨sendImageLayers_length W H T M, fun i hi => sendImageLayers_getElem W H T M i hi⟩

/-- Witness for C5 at the spec's scenario: 480×1920 image, 1 200 000-byte
encoding, 524 288-byte budget (3 layers of heights 1920, 1280, 640). -/
theorem c5_image_layering_witness :
    0 < 1200000 ∧ 0 < 524288 ∧
    ((sendImageLayers 480 1920 1200000 524288).length = mathCeilDiv 1200000 524288 ∧
     ∀ i, i < mathCeilDiv 1200000 524288 →
       (sendImageLayers 480 1920 1200000 524288)[i]? =
         some
           { cropLeft := 0
             cropUpper := max 0 ((1920 : Int) - ((i : Int) + 1) * ((1920 / mathCeilDiv 1200000 524288 : Nat) : Int))
             cropRight := (480 : Int)
             cropLower := (1920 : Int) - ((1920 / mathCeilDiv 1200000 524288 : Nat) : Int) * (i : Int)
             canvasWidth := (480 : Int)
             canvasHeight := (1920 : Int) - (i : Int) * ((1920 / mathCeilDiv 1200000 524288 : Nat) : Int)
             pasteX := 0
             pasteY := max 0 ((1920 : Int) - ((i : Int) + 1) * ((1920 / mathCeilDiv 1200000 524288 : Nat) : Int)) }) :=
  ⟨by decide, by decide, c5_image_layering 480 1920 1200000 524288 (by decide) (by decide)⟩

theorem mathCeilDiv_pos (a b : Nat) (ha : 0 < a) (hb : 0 < b) :
    0 < mathCeilDiv a b := by
  unfold mathCeilDiv
  exact Nat.div_pos (by omega) hb

/-- Canvas height of layer `i` of `send_image`, with default 0 when the
index is out of range. -/
def canvasHeightAt (W H T M i : Nat) : Int :=
  (((sendImageLayers W H T M)[i]?).map Layer.canvasHeight).getD 0

/-- C6 counterexample: at the spec's own scenario (480×1920 source,
1 200 000-byte encoding, 524 288-byte budget) the three canvases have
heights 1920, 1280, 640 — layer 1 is strictly shorter than layer 0, so
canvases are not progressively taller. -/
theorem c6_counterexample :
    ((sendImageLayers 480 1920 1200000 524288).map Layer.canvasHeight =
      [1920, 1280, 640]) ∧
    ¬ (canvasHeightAt 480 1920 1200000 524288 0 <
        canvasHeightAt 480 1920 1200000 524288 1) := by
  constructor <;> decide

/-- C6 amended: when the layer count does not exceed the image height
(so the band height `h = H / L` is at least 1), successive layers have
strictly SHORTER canvases: the canvas height of layer `i+1` is strictly
less than that of layer `i`.  Layer 0 is the full-height canvas showing
the bottom-most band. -/
theorem c6_canvas_heights_decrease (W H T M i : Nat) (hT : 0 < T) (hM : 0 < M)
    (hLH : mathCeilDiv T M ≤ H) (hi : i + 1 < mathCeilDiv T M) :
    canvasHeightAt W H T M (i + 1) < canvasHeightAt W H T M i := by
  have hL : 0 < mathCeilDiv T M := mathCeilDiv_pos T M hT hM
  have hh : 1 ≤ H / mathCeilDiv T M := (Nat.one_le_div_iff hL).mpr hLH
  unfold canvasHeightAt
  rw [sendImageLayers_getElem W H T M i (by omega),
    sendImageLayers_getElem W H T M (i + 1) hi]
  simp only [Option.map_some', Option.getD_some]
  have hhi : (1 : Int) ≤ ((H / mathCeilDiv T M : Nat) : Int) := by
    exact_mod_cast hh
  push_cast
  nlinarith [hhi]

/-- Witness for the amended C6 at the spec scenario, layers 0 and 1. -/
theorem c6_canvas_heights_decrease_witness :
    0 < 1200000 ∧ 0 < 524288 ∧ mathCeilDiv 1200000 524288 ≤ 1920 ∧
    0 + 1 < mathCeilDiv 1200000 524288 ∧
    canvasHeightAt 480 1920 1200000 524288 (0 + 1) <
      canvasHeightAt 480 1920 1200000 524288 0 :=
  ⟨by decide, by decide, by decide, by decide,
    c6_canvas_heights_decrease 480 1920 1200000 524288 0
      (by decide) (by decide) (by decide) (by decide)⟩

/-! Backpressure probe (`delay`, opcode 122). -/

/-- One probe of `delay(dev, rst)`: mirrors
`if response and response[8] > rst`.  A missing (`None`) or empty reply
is falsy and stops the recursion with no error (`ok false`); otherwise
Python evaluates `response[8]`, which raises IndexError when the reply
has fewer than 9 bytes (`error ()`); otherwise the probe continues
exactly when byte 8 exceeds the threshold. -/
def delayStep (reply : Option (List Nat)) (rst : Nat) : Except Unit Bool :=
  match reply with
  | none => Except.ok false
  | some r =>
    if r.isEmpty then Except.ok false
    else if h : 8 < r.length then Except.ok (decide (rst < r.get ⟨8, h⟩))
    else Except.error ()

/-- The `delay` recursion over the successive transport replies the
device produces; an exhausted list behaves as a missing reply. -/
def delayRun (rst : Nat) : List (Option (List Nat)) → Except Unit Unit
  | [] => Except.ok ()
  | reply :: rest =>
    match delayStep reply rst with
    | Except.error e => Except.error e
    | Except.ok true => delayRun rst rest
    | Except.ok false => Except.ok ()

/-- A reply that cannot make `delay` fault: missing, empty, or at least
9 bytes long. -/
def replySafe (r : Option (List Nat)) : Bool :=
  match r with
  | none => true
  | some l => l.isEmpty || decide (9 ≤ l.length)

/-- C7 counterexample: a non-empty 5-byte reply makes the probe raise
IndexError (modelled as `error ()`) instead of terminating cleanly, so
accessing byte 8 of a short reply does fault. -/
theorem c7_counterexample :
    delayRun 2 [some [0, 0, 0, 0, 0]] = Except.error () := rfl

/-- C7 amended: the probe terminates without error whenever every reply
is missing, empty, or at least 9 bytes long (stopping as soon as a reply
is falsy or byte 8 is ≤ the threshold); a non-empty reply shorter than
9 bytes instead raises IndexError. -/
theorem c7_delay_terminates (rst : Nat) (replies : List (Option (List Nat)))
    (hsafe : replies.all replySafe = true) :
    delayRun rst replies = Except.ok () := by
  induction replies with
  | nil => rfl
  | cons reply rest ih =>
    rw [List.all_cons, Bool.and_eq_true] at hsafe
    obtain ⟨hhead, htail⟩ := hsafe
    cases reply with
    | none => rfl
    | some r =>
      cases r with
      | nil => rfl
      | cons a l =>
        have h9 : 9 ≤ (a :: l).length := by
          simp only [replySafe, List.isEmpty_cons, Bool.false_or,
            decide_eq_true_eq] at hhead
          exact hhead
        have h8 : 8 < (a :: l).length := by omega
        simp only [delayRun, delayStep, List.isEmpty_cons, Bool.false_eq_true,
          if_false, dif_pos h8]
        by_cases hc : rst < (a :: l).get ⟨8, h8⟩
        · rw [decide_eq_true hc]
          exact ih htail
        · rw [decide_eq_false hc]

/-- Witness for the amended C7: a 9-byte busy reply followed by a
missing reply, threshold 2. -/
theorem c7_delay_terminates_witness :
    ([some [9, 9, 9, 9, 9, 9, 9, 9, 9], none] :
        List (Option (List Nat))).all replySafe = true ∧
    delayRun 2 [some [9, 9, 9, 9, 9, 9, 9, 9, 9], none] = Except.ok () :=
  ⟨by decide,
    c7_delay_terminates 2 [some [9, 9, 9, 9, 9, 9, 9, 9, 9], none] (by decide)⟩

/-! File upload (`upload_file`, opcodes 38 and 39). -/

/-- `CHUNK_SIZE` from `_write_file_command`: 1 MiB. -/
def CHUNK_SIZE : Nat := 1048576

/-- `HEADER_SIZE` from `_write_file_command`. -/
def HEADER_SIZE : Nat := 512

/-- `TOTAL_BUFFER_SIZE = HEADER_SIZE + CHUNK_SIZE`: the size of the
`bytearray` the source allocates and transmits after the encrypted
envelope on every opcode-39 transfer. -/
def TOTAL_BUFFER_SIZE : Nat := HEADER_SIZE + CHUNK_SIZE

/-- One opcode-39 transfer: the 500-byte plaintext header handed to
`encrypt_command_packet`, the number of valid data bytes this chunk
carries (`bytes_read` in the source), and the buffer transmitted after
the 512-byte envelope. -/
structure WriteTransfer where
  header : List Nat
  validBytes : Nat
  payload : List Nat
deriving DecidableEq

/-- The unconditional part of the opcode-39 header of
`_write_file_command`: big-endian `CHUNK_SIZE` at bytes 8-11 and
big-endian `bytes_read` at bytes 12-15. -/
def writeChunkHeaderBase (ts bytes_read : Nat) : List Nat :=
  let header := build_command_packet_header 39 ts
  let header := header.set 8 (CHUNK_SIZE / 16777216 % 256)
  let header := header.set 9 (CHUNK_SIZE / 65536 % 256)
  let header := header.set 10 (CHUNK_SIZE / 256 % 256)
  let header := header.set 11 (CHUNK_SIZE % 256)
  let header := header.set 12 (bytes_read / 16777216 % 256)
  let header := header.set 13 (bytes_read / 65536 % 256)
  let header := header.set 14 (bytes_read / 256 % 256)
  let header := header.set 15 (bytes_read % 256)
  header

/-- The opcode-39 header, with byte 16 set to 1 on the last chunk. -/
def writeChunkHeader (ts bytes_read : Nat) (last : Bool) : List Nat :=
  if last then (writeChunkHeaderBase ts bytes_read).set 16 1
  else writeChunkHeaderBase ts bytes_read

/-- The chunk loop of `_write_file_command` over the remaining file
content.  `replyOk i` is the truthiness of the device reply to the
`i`-th transfer; a falsy reply aborts with `False` after the failed
transfer.  Fuel is the initial content length, which bounds the number
of iterations; the fuel-exhausted arm is unreachable. -/
def writeFileLoop (ts : Nat) (replyOk : Nat → Bool) :
    Nat → Nat → List Nat → Bool × List WriteTransfer
  | _, _, [] => (true, [])
  | 0, _, _ :: _ => (true, [])
  | fuel + 1, idx, x :: xs =>
    let data := (x :: xs).take CHUNK_SIZE
    let bytes_read := data.length
    let lastChunk := ((x :: xs).drop CHUNK_SIZE).isEmpty
    let t : WriteTransfer :=
      { header := writeChunkHeader ts bytes_read lastChunk
        validBytes := bytes_read
        payload := data ++ List.replicate (TOTAL_BUFFER_SIZE - bytes_read) 0 }
    if replyOk idx then
      let rest := writeFileLoop ts replyOk fuel (idx + 1) ((x :: xs).drop CHUNK_SIZE)
      (rest.1, t :: rest.2)
    else (false, [t])

/-- `_write_file_command(dev, file_path)` over the file's bytes. -/
def write_file_command (ts : Nat) (replyOk : Nat → Bool) (content : List Nat) :
    Bool × List WriteTransfer :=
  writeFileLoop ts replyOk content.length 0 content

/-- A transfer issued by `upload_file`: the opcode-38 open command with
its device path, or an opcode-39 write transfer. -/
inductive UploadMsg where
  | openFile (opcode : Nat) (path : String)
  | writeChunk (t : WriteTransfer)
deriving DecidableEq

def isOpenMsg : UploadMsg → Bool
  | UploadMsg.openFile _ _ => true
  | UploadMsg.writeChunk _ => false

def isWriteMsg : UploadMsg → Bool
  | UploadMsg.openFile _ _ => false
  | UploadMsg.writeChunk _ => true

/-- Body of `upload_file` after the remote path is chosen: send the
opcode-38 open command; abort on a falsy reply; otherwise stream the
content with `_write_file_command`. -/
def uploadBody (path : String) (content : List Nat) (openReply : Option (List Nat))
    (replyOk : Nat → Bool) (ts : Nat) : Bool × List UploadMsg :=
  if truthy openReply then
    let w := write_file_command ts replyOk content
    (w.1, UploadMsg.openFile 38 path :: w.2.map UploadMsg.writeChunk)
  else (false, [UploadMsg.openFile 38 path])

/-- `upload_file(dev, file_path)` for an existing local file: `.png`
uploads the file's own bytes to the img directory; `.mp4` first runs the
external ffmpeg adapter, so `content` is the extracted H.264 stream and
the remote name gains a `.h264` suffix; other extensions are rejected
with no device I/O. -/
def upload_file (ext name : String) (content : List Nat)
    (openReply : Option (List Nat)) (replyOk : Nat → Bool) (ts : Nat) :
    Bool × List UploadMsg :=
  if ext = ".png" then
    uploadBody ("/tmp/sdcard/mmcblk0p1/img/" ++ name) content openReply replyOk ts
  else if ext = ".mp4" then
    uploadBody ("/tmp/sdcard/mmcblk0p1/video/" ++ name ++ ".h264") content openReply replyOk ts
  else (false, [])

theorem writeChunkHeaderBase_length (ts n : Nat) :
    (writeChunkHeaderBase ts n).length = 500 := by
  simp only [writeChunkHeaderBase, List.length_set, build_header_length]

theorem writeChunkHeader_length (ts n : Nat) (last : Bool) :
    (writeChunkHeader ts n last).length = 500 := by
  cases last with
  | true =>
    show ((writeChunkHeaderBase ts n).set 16 1).length = 500
    rw [List.length_set, writeChunkHeaderBase_length]
  | false => exact writeChunkHeaderBase_length ts n

theorem writeChunkHeaderBase_flag (ts n : Nat) :
    (writeChunkHeaderBase ts n)[16]? = some 0 := by
  simp only [writeChunkHeaderBase, build_command_packet_header]
  rw [List.getElem?_set_ne (by omega : (15 : Nat) ≠ 16),
    List.getElem?_set_ne (by omega : (14 : Nat) ≠ 16),
    List.getElem?_set_ne (by omega : (13 : Nat) ≠ 16),
    List.getElem?_set_ne (by omega : (12 : Nat) ≠ 16),
    List.getElem?_set_ne (by omega : (11 : Nat) ≠ 16),
    List.getElem?_set_ne (by omega : (10 : Nat) ≠ 16),
    List.getElem?_set_ne (by omega : (9 : Nat) ≠ 16),
    List.getElem?_set_ne (by omega : (8 : Nat) ≠ 16),
    List.getElem?_set_ne (by omega : (7 : Nat) ≠ 16),
    List.getElem?_set_ne (by omega : (6 : Nat) ≠ 16),
    List.getElem?_set_ne (by omega : (5 : Nat) ≠ 16),
    List.getElem?_set_ne (by omega : (4 : Nat) ≠ 16),
    List.getElem?_set_ne (by omega : (3 : Nat) ≠ 16),
    List.getElem?_set_ne (by omega : (2 : Nat) ≠ 16),
    List.getElem?_set_ne (by omega : (0 : Nat) ≠ 16),
    List.getElem?_replicate_of_lt (by omega : (16 : Nat) < 500)]

/-- Byte 16 of an opcode-39 header is 1 exactly on the last chunk, else
it keeps its zero initialisation. -/
theorem writeChunkHeader_flag_true (ts n : Nat) :
    (writeChunkHeader ts n true)[16]? = some 1 := by
  show ((writeChunkHeaderBase ts n).set 16 1)[16]? = some 1
  rw [List.getElem?_set_self]
  rw [writeChunkHeaderBase_length]
  omega

theorem writeChunkHeader_flag_false (ts n : Nat) :
    (writeChunkHeader ts n false)[16]? = some 0 :=
  writeChunkHeaderBase_flag ts n

theorem mathCeilDiv_zero (C : Nat) (hC : 0 < C) : mathCeilDiv 0 C = 0 := by
  unfold mathCeilDiv
  exact Nat.div_eq_of_lt (by omega)

theorem mathCeilDiv_eq_one (n C : Nat) (h0 : 0 < n) (h1 : n ≤ C) :
    mathCeilDiv n C = 1 := by
  unfold mathCeilDiv
  have hC : 0 < C := by omega
  have h2 : n + C - 1 = (n - 1) + C := by omega
  rw [h2, Nat.add_div_right _ hC, Nat.div_eq_of_lt (by omega)]

theorem mathCeilDiv_of_lt (n C : Nat) (hC : 0 < C) (h : C < n) :
    mathCeilDiv n C = mathCeilDiv (n - C) C + 1 := by
  unfold mathCeilDiv
  have h2 : n + C - 1 = ((n - C) + C - 1) + C := by omega
  rw [h2, Nat.add_div_right _ hC]

theorem writeFileLoop_nil (ts : Nat) (replyOk : Nat → Bool) (fuel idx : Nat) :
    writeFileLoop ts replyOk fuel idx [] = (true, []) := by
  cases fuel <;> rfl

theorem writeFileLoop_cons (ts : Nat) (replyOk : Nat → Bool) (fuel idx : Nat)
    (x : Nat) (xs : List Nat) :
    writeFileLoop ts replyOk (fuel + 1) idx (x :: xs) =
      if replyOk idx then
        ((writeFileLoop ts replyOk fuel (idx + 1) ((x :: xs).drop CHUNK_SIZE)).1,
          { header := writeChunkHeader ts ((x :: xs).take CHUNK_SIZE).length
              (((x :: xs).drop CHUNK_SIZE).isEmpty)
            validBytes := ((x :: xs).take CHUNK_SIZE).length
            payload := (x :: xs).take CHUNK_SIZE ++
              List.replicate (TOTAL_BUFFER_SIZE - ((x :: xs).take CHUNK_SIZE).length) 0 } ::
          (writeFileLoop ts replyOk fuel (idx + 1) ((x :: xs).drop CHUNK_SIZE)).2)
      else (false,
        [{ header := writeChunkHeader ts ((x :: xs).take CHUNK_SIZE).length
             (((x :: xs).drop CHUNK_SIZE).isEmpty)
           validBytes := ((x :: xs).take CHUNK_SIZE).length
           payload := (x :: xs).take CHUNK_SIZE ++
             List.replicate (TOTAL_BUFFER_SIZE - ((x :: xs).take CHUNK_SIZE).length) 0 }]) := rfl

/-- With every reply truthy, the chunk loop succeeds, emits exactly
`ceil(N / CHUNK_SIZE)` transfers, and sets header byte 16 to 1 exactly
on the final transfer. -/
theorem writeFileLoop_ok (ts : Nat) (replyOk : Nat → Bool)
    (hok : ∀ i, replyOk i = true) :
    ∀ (fuel idx : Nat) (content : List Nat), content.length ≤ fuel →
      (writeFileLoop ts replyOk fuel idx content).1 = true ∧
      (writeFileLoop ts replyOk fuel idx content).2.length
        = mathCeilDiv content.length CHUNK_SIZE ∧
      (∀ j t, (writeFileLoop ts replyOk fuel idx content).2[j]? = some t →
        (t.header[16]? = some 1 ↔ j + 1 = mathCeilDiv content.length CHUNK_SIZE)) := by
  intro fuel
  induction fuel with
  | zero =>
    intro idx content hlen
    have hc : content = [] := List.eq_nil_of_length_eq_zero (Nat.le_zero.mp hlen)
    subst hc
    rw [writeFileLoop_nil]
    refine ⟨rfl, ?_, ?_⟩
    · simp [mathCeilDiv_zero CHUNK_SIZE (by decide)]
    · intro j t ht
      simp at ht
  | succ f ih =>
    intro idx content hlen
    cases content with
    | nil =>
      rw [writeFileLoop_nil]
      refine ⟨rfl, ?_, ?_⟩
      · simp [mathCeilDiv_zero CHUNK_SIZE (by decide)]
      · intro j t ht
        simp at ht
    | cons x xs =>
      rw [List.length_cons] at hlen
      have hlen0 : 0 < (x :: xs).length := by rw [List.length_cons]; omega
      rw [writeFileLoop_cons, hok idx, if_pos rfl]
      by_cases hsmall : (x :: xs).length ≤ CHUNK_SIZE
      · have hdrop : (x :: xs).drop CHUNK_SIZE = [] := List.drop_eq_nil_of_le hsmall
        have hceil : mathCeilDiv (x :: xs).length CHUNK_SIZE = 1 :=
          mathCeilDiv_eq_one _ _ hlen0 hsmall
        rw [hdrop, writeFileLoop_nil]
        refine ⟨rfl, ?_, ?_⟩
        · rw [hceil]
          rfl
        · intro j t ht
          cases j with
          | zero =>
            simp only [List.getElem?_cons_zero, Option.some.injEq] at ht
            subst ht
            simp only [List.isEmpty_nil]
            rw [writeChunkHeader_flag_true, hceil]
            simp
          | succ j =>
            simp at ht
      · push_neg at hsmall
        have hCpos : 0 < CHUNK_SIZE := by decide
        have hdlen : ((x :: xs).drop CHUNK_SIZE).length
            = (x :: xs).length - CHUNK_SIZE := List.length_drop _ _
        have hdne : (x :: xs).drop CHUNK_SIZE ≠ [] := by
          intro hcontra
          have hle := List.drop_eq_nil_iff.mp hcontra
          omega
        have hne : ((x :: xs).drop CHUNK_SIZE).isEmpty = false := by
          cases hd : (x :: xs).drop CHUNK_SIZE with
          | nil => exact absurd hd hdne
          | cons a l => rfl
        obtain ⟨h1, h2, h3⟩ := ih (idx + 1) ((x :: xs).drop CHUNK_SIZE)
          (by rw [hdlen, List.length_cons]; omega)
        have hceil : mathCeilDiv (x :: xs).length CHUNK_SIZE
            = mathCeilDiv ((x :: xs).length - CHUNK_SIZE) CHUNK_SIZE + 1 :=
          mathCeilDiv_of_lt _ _ hCpos hsmall
        have hposd : 0 < mathCeilDiv ((x :: xs).length - CHUNK_SIZE) CHUNK_SIZE :=
          mathCeilDiv_pos _ _ (by omega) hCpos
        refine ⟨h1, ?_, ?_⟩
        · rw [List.length_cons, h2, hdlen, hceil]
        · intro j t ht
          cases j with
          | zero =>
            simp only [List.getElem?_cons_zero, Option.some.injEq] at ht
            subst ht
            simp only [hne]
            rw [writeChunkHeader_flag_false]
            refine iff_of_false (by simp) ?_
            rw [hceil]
            omega
          | succ j =>
            simp only [List.getElem?_cons_succ] at ht
            rw [h3 j t ht, hceil, hdlen]
            omega

/-- Every opcode-39 transfer carries a buffer of exactly
`TOTAL_BUFFER_SIZE` bytes after the envelope, with the valid data at
offset 0 and zeros beyond it. -/
theorem writeFileLoop_payload (ts : Nat) (replyOk : Nat → Bool) :
    ∀ (fuel idx : Nat) (content : List Nat),
      ∀ t ∈ (writeFileLoop ts replyOk fuel idx content).2,
        t.payload.length = TOTAL_BUFFER_SIZE ∧
        t.validBytes ≤ CHUNK_SIZE ∧
        t.payload.drop t.validBytes
          = List.replicate (TOTAL_BUFFER_SIZE - t.validBytes) 0 := by
  intro fuel
  induction fuel with
  | zero =>
    intro idx content t ht
    cases content with
    | nil => rw [writeFileLoop_nil] at ht; simp at ht
    | cons x xs => simp [writeFileLoop] at ht
  | succ f ih =>
    intro idx content t ht
    cases content with
    | nil => rw [writeFileLoop_nil] at ht; simp at ht
    | cons x xs =>
      rw [writeFileLoop_cons] at ht
      have hhead :
          ∀ h : WriteTransfer,
            h = { header := writeChunkHeader ts ((x :: xs).take CHUNK_SIZE).length
                    (((x :: xs).drop CHUNK_SIZE).isEmpty)
                  validBytes := ((x :: xs).take CHUNK_SIZE).length
                  payload := (x :: xs).take CHUNK_SIZE ++
                    List.replicate (TOTAL_BUFFER_SIZE - ((x :: xs).take CHUNK_SIZE).length) 0 } →
            h.payload.length = TOTAL_BUFFER_SIZE ∧
            h.validBytes ≤ CHUNK_SIZE ∧
            h.payload.drop h.validBytes
              = List.replicate (TOTAL_BUFFER_SIZE - h.validBytes) 0 := by
        intro h hh
        subst hh
        have htl : ((x :: xs).take CHUNK_SIZE).length ≤ CHUNK_SIZE := by
          rw [List.length_take]
          omega
        refine ⟨?_, htl, ?_⟩
        · rw [List.length_append, List.length_replicate]
          have : CHUNK_SIZE < TOTAL_BUFFER_SIZE := by decide
          omega
        · exact List.drop_left _ _
      by_cases hr : replyOk idx = true
      · rw [if_pos hr] at ht
        rcases List.mem_cons.mp ht with hh | hh
        · exact hhead t hh
        · exact ih (idx + 1) ((x :: xs).drop CHUNK_SIZE) t hh
      · rw [if_neg hr] at ht
        rcases List.mem_cons.mp ht with hh | hh
        · exact hhead t hh
        · simp at hh

/-- Evaluation of `_write_file_command` on a 1-byte file with a truthy
reply: one transfer, flagged last, carrying the byte plus
`TOTAL_BUFFER_SIZE - 1` zeros. -/
theorem write_file_single_eval :
    write_file_command 0 (fun _ => true) [7] =
      (true, [{ header := writeChunkHeader 0 1 true
                validBytes := 1
                payload := [7] ++ List.replicate (TOTAL_BUFFER_SIZE - 1) 0 }]) := by
  have htake : ([7] : List Nat).take CHUNK_SIZE = [7] :=
    List.take_of_length_le (by simp [CHUNK_SIZE])
  have hdrop : ([7] : List Nat).drop CHUNK_SIZE = [] :=
    List.drop_eq_nil_of_le (by simp [CHUNK_SIZE])
  show writeFileLoop 0 (fun _ => true) ([7] : List Nat).length 0 [7] = _
  rw [show ([7] : List Nat).length = 0 + 1 from rfl, writeFileLoop_cons, if_pos rfl,
    hdrop, writeFileLoop_nil, htake]
  rfl

/-- C2 counterexample: on a 1-byte file, the buffer transmitted after
the 512-byte envelope is 1 049 088 bytes (`HEADER_SIZE + CHUNK_SIZE`),
not the claimed 1 048 576. -/
theorem c2_counterexample :
    ((write_file_command 0 (fun _ => true) [7]).2.map fun t => t.payload.length)
      = [1049088] ∧ (1049088 : Nat) ≠ 1048576 := by
  refine ⟨?_, by decide⟩
  have h1 : ((write_file_command 0 (fun _ => true) [7]).2.map
      fun t => t.payload.length)
      = [([7] ++ List.replicate (TOTAL_BUFFER_SIZE - 1) 0).length] := by
    rw [write_file_single_eval]
    rfl
  rw [h1, List.length_append, List.length_replicate, List.length_cons,
    List.length_nil]
  norm_num [TOTAL_BUFFER_SIZE, HEADER_SIZE, CHUNK_SIZE]

/-- C2 amended: every opcode-39 transfer carries a payload of exactly
`TOTAL_BUFFER_SIZE = HEADER_SIZE + CHUNK_SIZE = 1 049 088` bytes after
the envelope (the source allocates `bytearray(TOTAL_BUFFER_SIZE)` and
prepends the encrypted header separately), and every byte beyond the
valid data bytes is zero. -/
theorem c2_write_buffer (ts : Nat) (replyOk : Nat → Bool) (content : List Nat) :
    ∀ t ∈ (write_file_command ts replyOk content).2,
      t.payload.length = TOTAL_BUFFER_SIZE ∧
      t.validBytes ≤ CHUNK_SIZE ∧
      t.payload.drop t.validBytes
        = List.replicate (TOTAL_BUFFER_SIZE - t.validBytes) 0 :=
  fun t ht => writeFileLoop_payload ts replyOk content.length 0 content t ht

/-- The single transfer of the 1-byte upload, for the C2 witness. -/
def c2SingleTransfer : WriteTransfer :=
  { header := writeChunkHeader 0 1 true
    validBytes := 1
    payload := [7] ++ List.replicate (TOTAL_BUFFER_SIZE - 1) 0 }

/-- Witness for the amended C2 on the 1-byte file. -/
theorem c2_write_buffer_witness :
    c2SingleTransfer ∈ (write_file_command 0 (fun _ => true) [7]).2 ∧
    (c2SingleTransfer.payload.length = TOTAL_BUFFER_SIZE ∧
     c2SingleTransfer.validBytes ≤ CHUNK_SIZE ∧
     c2SingleTransfer.payload.drop c2SingleTransfer.validBytes
       = List.replicate (TOTAL_BUFFER_SIZE - c2SingleTransfer.validBytes) 0) := by
  have hmem : c2SingleTransfer ∈ (write_file_command 0 (fun _ => true) [7]).2 := by
    rw [write_file_single_eval]
    exact List.mem_singleton.mpr rfl
  exact ⟨hmem, c2_write_buffer 0 (fun _ => true) [7] c2SingleTransfer hmem⟩

theorem countP_map_writeChunk_open (l : List WriteTransfer) :
    ((l.map UploadMsg.writeChunk).countP isOpenMsg) = 0 := by
  induction l with
  | nil => rfl
  | cons t l ih => simp [List.countP_cons, isOpenMsg, ih]

theorem countP_map_writeChunk_write (l : List WriteTransfer) :
    ((l.map UploadMsg.writeChunk).countP isWriteMsg) = l.length := by
  induction l with
  | nil => rfl
  | cons t l ih => simp [List.countP_cons, isWriteMsg, ih]

/-- C8: uploading a non-empty supported file whose streamed bytes are
`content` (the file itself for `.png`, the extracted H.264 stream for
`.mp4`), with a truthy open reply and truthy chunk replies, issues
exactly one opcode-38 command, exactly `ceil(N / 1048576)` opcode-39
transfers for `N = content.length`, and sets the last-chunk flag
(header byte 16 = 1) on the final transfer and on no other. -/
theorem c8_upload_counts (ext name : String) (content : List Nat)
    (openReply : Option (List Nat)) (replyOk : Nat → Bool) (ts : Nat)
    (hext : ext = ".png" ∨ ext = ".mp4")
    (hN : 0 < content.length)
    (hopen : truthy openReply = true)
    (hok : ∀ i, replyOk i = true) :
    (upload_file ext name content openReply replyOk ts).1 = true ∧
    (upload_file ext name content openReply replyOk ts).2.countP isOpenMsg = 1 ∧
    (upload_file ext name content openReply replyOk ts).2.countP isWriteMsg
      = mathCeilDiv content.length CHUNK_SIZE ∧
    (∀ j t, (write_file_command ts replyOk content).2[j]? = some t →
      (t.header[16]? = some 1 ↔ j + 1 = mathCeilDiv content.length CHUNK_SIZE)) := by
  obtain ⟨h1, h2, h3⟩ :=
    writeFileLoop_ok ts replyOk hok content.length 0 content (Nat.le_refl _)
  have h1w : (write_file_command ts replyOk content).1 = true := h1
  have h2w : (write_file_command ts replyOk content).2.length
      = mathCeilDiv content.length CHUNK_SIZE := h2
  have h3w : ∀ j t, (write_file_command ts replyOk content).2[j]? = some t →
      (t.header[16]? = some 1 ↔ j + 1 = mathCeilDiv content.length CHUNK_SIZE) := h3
  have hbody : ∀ path : String,
      (uploadBody path content openReply replyOk ts).1 = true ∧
      (uploadBody path content openReply replyOk ts).2.countP isOpenMsg = 1 ∧
      (uploadBody path content openReply replyOk ts).2.countP isWriteMsg
        = mathCeilDiv content.length CHUNK_SIZE := by
    intro path
    unfold uploadBody
    rw [hopen, if_pos rfl]
    refine ⟨h1w, ?_, ?_⟩
    · simp [List.countP_cons, isOpenMsg, countP_map_writeChunk_open]
    · rw [List.countP_cons, countP_map_writeChunk_write, h2w]
      simp [isWriteMsg]
  rcases hext with hme | hme
  · subst hme
    unfold upload_file
    rw [if_pos rfl]
    exact ⟨(hbody _).1, (hbody _).2.1, (hbody _).2.2, h3w⟩
  · subst hme
    unfold upload_file
    rw [if_neg (by decide), if_pos rfl]
    exact ⟨(hbody _).1, (hbody _).2.1, (hbody _).2.2, h3w⟩

/-- Witness for C8: a 1-byte `.png` upload with truthy replies. -/
theorem c8_upload_counts_witness :
    ((".png" : String) = ".png" ∨ (".png" : String) = ".mp4") ∧
    0 < ([5] : List Nat).length ∧
    truthy (some [1]) = true ∧
    (∀ i : Nat, (fun _ => true : Nat → Bool) i = true) ∧
    ((upload_file ".png" "a.png" [5] (some [1]) (fun _ => true) 0).1 = true ∧
     (upload_file ".png" "a.png" [5] (some [1]) (fun _ => true) 0).2.countP isOpenMsg = 1 ∧
     (upload_file ".png" "a.png" [5] (some [1]) (fun _ => true) 0).2.countP isWriteMsg
       = mathCeilDiv ([5] : List Nat).length CHUNK_SIZE ∧
     (∀ j t, (write_file_command 0 (fun _ => true) [5]).2[j]? = some t →
       (t.header[16]? = some 1 ↔ j + 1 = mathCeilDiv ([5] : List Nat).length CHUNK_SIZE))) :=
  ⟨Or.inl rfl, by decide, rfl, fun _ => rfl,
    c8_upload_counts ".png" "a.png" [5] (some [1]) (fun _ => true) 0
      (Or.inl rfl) (by decide) rfl (fun _ => rfl)⟩

/-- C10: uploading an existing empty `.png` file sends the opcode-38
open command, issues zero opcode-39 transfers — so no last-chunk flag is
ever transmitted and the remote file is never finalised — and still
returns True, reporting success. -/
theorem c10_empty_upload (name : String) (openReply : Option (List Nat))
    (replyOk : Nat → Bool) (ts : Nat) (hopen : truthy openReply = true) :
    (upload_file ".png" name [] openReply replyOk ts).1 = true ∧
    (upload_file ".png" name [] openReply replyOk ts).2 =
      [UploadMsg.openFile 38 ("/tmp/sdcard/mmcblk0p1/img/" ++ name)] := by
  unfold upload_file uploadBody
  rw [if_pos rfl, hopen, if_pos rfl,
    show write_file_command ts replyOk [] = (true, []) from
      writeFileLoop_nil ts replyOk 0 0]
  exact ⟨rfl, rfl⟩

/-- Witness for C10 at a concrete truthy open reply. -/
theorem c10_empty_upload_witness :
    truthy (some [1]) = true ∧
    ((upload_file ".png" "a.png" [] (some [1]) (fun _ => true) 0).1 = true ∧
     (upload_file ".png" "a.png" [] (some [1]) (fun _ => true) 0).2 =
       [UploadMsg.openFile 38 ("/tmp/sdcard/mmcblk0p1/img/" ++ "a.png")]) :=
  ⟨rfl, c10_empty_upload "a.png" (some [1]) (fun _ => true) 0 rfl⟩

/-! Video streamer (`send_video`, opcode 121) and its teardown. -/

theorem getLast?_append_singleton {α : Type} (l : List α) (a : α) :
    (l ++ [a]).getLast? = some a := by
  induction l with
  | nil => rfl
  | cons x xs ih =>
    rw [List.cons_append]
    cases hxs : xs ++ [a] with
    | nil => exact absurd hxs (by simp)
    | cons y ys =>
      rw [List.getLast?_cons_cons, ← hxs]
      exact ih

/-- One pass of the `send_video` streaming loop over the chunk list of
the H.264 file (one opcode-121 message per non-empty read).  `budget`
counts the chunk transmissions that happen before the user interrupt
arrives (`none` means no interrupt).  Returns the opcodes sent in this
pass, together with `none` if the interrupt fired during the pass, or
`some` of the remaining budget if the pass ran to end-of-file. -/
def passEmit : List Nat → Option Nat → List Nat × Option (Option Nat)
  | [], b => ([], some b)
  | _ :: _, some 0 => ([], none)
  | _ :: rest, some (k + 1) =>
    let r := passEmit rest (some k)
    (121 :: r.1, r.2)
  | _ :: rest, none =>
    let r := passEmit rest none
    (121 :: r.1, r.2)

/-- The `while True` wrapper of `send_video`: replay the file while
`loop` is set, stop after one pass otherwise; a `KeyboardInterrupt`
(exhausted budget) ends the loop and is caught.  `fuel` bounds the
number of passes; `none` models divergence (`loop=true` with no
interrupt never terminates, and opcode 123 is then never reached). -/
def videoLoop : Nat → List Nat → Bool → Option Nat → Option (List Nat × Bool)
  | 0, _, _, _ => none
  | fuel + 1, chunks, loop, b =>
    match passEmit chunks b with
    | (ms, none) => some (ms, true)
    | (ms, some bRest) =>
      if loop then
        match videoLoop fuel chunks loop bRest with
        | none => none
        | some (ms2, i) => some (ms ++ ms2, i)
      else some (ms, false)

/-- Opcodes of the `send_video` prelude: 111, 112, 13, brightness (14),
41, clear-image (102), frame-rate (15). -/
def videoPrelude : List Nat := [111, 112, 13, 14, 41, 102, 15]

/-- Opcode trace of `send_video`: prelude, the streaming section, and
the opcode-123 reset that sits after the interrupt-catching block, so it
runs on both normal completion and user interrupt.  `none` when the
streaming loop does not terminate.  Backpressure probes (opcode 122)
interleave with the chunk stream but do not affect the teardown and are
omitted from the trace. -/
def send_video_trace (fuel : Nat) (chunks : List Nat) (loop : Bool)
    (intr : Option Nat) : Option (List Nat) :=
  match videoLoop fuel chunks loop intr with
  | none => none
  | some (ms, _) => some (videoPrelude ++ ms ++ [123])

theorem passEmit_interrupt : ∀ (chunks : List Nat) (k : Nat),
    k < chunks.length → (passEmit chunks (some k)).2 = none := by
  intro chunks
  induction chunks with
  | nil => intro k hk; simp at hk
  | cons c rest ih =>
    intro k hk
    cases k with
    | zero => rfl
    | succ k =>
      rw [List.length_cons] at hk
      exact ih k (by omega)

theorem passEmit_complete : ∀ (chunks : List Nat) (k : Nat),
    chunks.length ≤ k →
    (passEmit chunks (some k)).2 = some (some (k - chunks.length)) := by
  intro chunks
  induction chunks with
  | nil => intro k _; rfl
  | cons c rest ih =>
    intro k hk
    rw [List.length_cons] at hk
    cases k with
    | zero => omega
    | succ k =>
      show (passEmit rest (some k)).2 = _
      rw [ih k (by omega), List.length_cons]
      refine congrArg some (congrArg some ?_)
      omega

theorem videoLoop_interrupt : ∀ (fuel : Nat) (chunks : List Nat)
    (loop : Bool) (k : Nat), chunks ≠ [] → k < fuel * chunks.length →
    (videoLoop fuel chunks loop (some k)).isSome = true := by
  intro fuel
  induction fuel with
  | zero =>
    intro chunks loop k _ hk
    simp at hk
  | succ f ih =>
    intro chunks loop k hne hk
    simp only [videoLoop]
    by_cases hlt : k < chunks.length
    · have h2 := passEmit_interrupt chunks k hlt
      rcases hp : passEmit chunks (some k) with ⟨ms, r⟩
      rw [hp] at h2
      simp only at h2
      subst h2
      rfl
    · push_neg at hlt
      have h2 := passEmit_complete chunks k hlt
      rcases hp : passEmit chunks (some k) with ⟨ms, r⟩
      rw [hp] at h2
      simp only at h2
      subst h2
      have hpos : 0 < chunks.length := List.length_pos.mpr hne
      have hmul : (f + 1) * chunks.length
          = f * chunks.length + chunks.length := by ring
      have hk2 : k - chunks.length < f * chunks.length := by
        rw [hmul] at hk
        omega
      cases loop with
      | false => rfl
      | true =>
        have hrec := ih chunks true (k - chunks.length) hne hk2
        simp only [if_pos rfl]
        cases hv : videoLoop f chunks true (some (k - chunks.length)) with
        | none => rw [hv] at hrec; simp at hrec
        | some p =>
          rcases p with ⟨ms2, i⟩
          simp

/-- C9: whenever the `send_video` streaming loop ends — by normal
end-of-stream with looping disabled, or by a user interrupt arriving
during the loop — opcode 123 is subsequently sent before `send_video`
returns: every terminating trace ends in 123, the loop-disabled run
always terminates, and an interrupt during the loop always terminates
it. -/
theorem c9_video_teardown (fuel : Nat) (chunks : List Nat) (loop : Bool)
    (intr : Option Nat) :
    (∀ tr, send_video_trace fuel chunks loop intr = some tr →
      tr.getLast? = some 123) ∧
    (loop = false → 0 < fuel →
      (send_video_trace fuel chunks loop intr).isSome = true) ∧
    (∀ k, intr = some k → chunks ≠ [] → k < fuel * chunks.length →
      (send_video_trace fuel chunks loop intr).isSome = true) := by
  refine ⟨?_, ?_, ?_⟩
  · intro tr htr
    unfold send_video_trace at htr
    rcases hv : videoLoop fuel chunks loop intr with _ | p
    · rw [hv] at htr; simp at htr
    · rcases p with ⟨ms, i⟩
      rw [hv] at htr
      simp only [Option.some.injEq] at htr
      subst htr
      exact getLast?_append_singleton _ _
  · intro hloop hfuel
    subst hloop
    cases fuel with
    | zero => omega
    | succ f =>
      unfold send_video_trace
      simp only [videoLoop]
      rcases hp : passEmit chunks intr with ⟨ms, r⟩
      cases r with
      | none => rfl
      | some bRest => rfl
  · intro k hintr hne hk
    subst hintr
    have h := videoLoop_interrupt fuel chunks loop k hne hk
    unfold send_video_trace
    cases hv : videoLoop fuel chunks loop (some k) with
    | none => rw [hv] at h; simp at h
    | some p =>
      rcases p with ⟨ms, i⟩
      rfl

/-- Witness for C9: a one-chunk file, checking the teardown trace for
the loop-disabled run and termination for both the loop-disabled run
and an immediate interrupt of a looping run. -/
theorem c9_video_teardown_witness :
    ((videoPrelude ++ [121] ++ [123]).getLast? = some 123) ∧
    (send_video_trace 1 [5] false none).isSome = true ∧
    (send_video_trace 1 [5] true (some 0)).isSome = true := by
  refine ⟨(c9_video_teardown 1 [5] false none).1
      (videoPrelude ++ [121] ++ [123]) ?_,
    (c9_video_teardown 1 [5] false none).2.1 rfl (by decide),
    (c9_video_teardown 1 [5] true (some 0)).2.2 0 rfl (by decide) (by decide)⟩
  rfl

end TuringScreen
